import Mathlib

/-!
Verification development for the numerical core `pyginla/numerical_methods.py`
(inexact Newton / Krylov / deflation solvers).

The Python source is embedded shallowly:

* exact scalars replace floating point: `ℚ` where the relevant code is pure
  rational control flow or arithmetic, `ℝ`/`ℂ` where square roots or complex
  magnitudes occur (`Real.sqrt`, `Complex.abs`);
* fallible code (functions that `raise`) returns `Except String _`;
* calls into external libraries (`scipy.linalg.eigh`, `np.linalg.inv`,
  `np.linalg.solve`) and the caller-supplied collaborators (model evaluator,
  linear solver, inner product) are parameters of the embedded functions,
  constrained by hypotheses stating exactly the guarantees those libraries
  provide;
* the iteration loops (`while` with mutation) become fuel-based recursion on
  explicit state records, with fuel equal to the source's iteration bound.
-/

/-! ### `_norm_squared` / `_norm` (source lines 44-68)

`_norm_squared(x, Mx, inner_product)` computes `rho = inner_product(x, Mx or x)`,
raises if `abs(rho.imag) > abs(rho) * 1e-10`, takes `rho = rho.real`, raises if
`rho < 0`, else returns `rho`; `_norm` is its square root.  The vectors and the
inner product are abstract parameters (the source takes `inner_product` as an
argument); only the scalar `rho` is computed on. -/

/-- The quadratic form `rho`: `inner_product(x, x)` or `inner_product(x, Mx)`
(source lines 48-53). -/
def quadForm {V : Type} (x : V) (Mx : Option V)
    (inner_product : V → V → ℂ) : ℂ :=
  match Mx with
  | none => inner_product x x
  | some mx => inner_product x mx

open Classical in
noncomputable def _norm_squared {V : Type} (x : V) (Mx : Option V)
    (inner_product : V → V → ℂ) : Except String ℝ :=
  let rho : ℂ := quadForm x Mx inner_product
  if |rho.im| > Complex.abs rho * (1 / 10 ^ 10) then
    Except.error "M not positive definite?"
  else
    if rho.re < 0 then
      Except.error "<x,Mx> negative. M not positive definite?"
    else
      Except.ok rho.re

noncomputable def _norm {V : Type} (x : V) (Mx : Option V)
    (inner_product : V → V → ℂ) : Except String ℝ :=
  (_norm_squared x Mx inner_product).map Real.sqrt

/-! ### `_givens` (source lines 849-877)

`_givens(a, b)` builds the 2x2 rotation `[[c, s], [-conj(s), conj(c)]]` with
four branches on `abs(a)`, `abs(b)`.  `givens_cs` computes the pair `(c, s)`
of a branch; `_givens` assembles the returned matrix.  Division is Lean's
total division: at `(a, b) = (0, 0)` the source divides by `r = abs(a) = 0`
(undefined: NaN/ZeroDivisionError), the embedding returns `0` there. -/

open Classical in
noncomputable def givens_cs (a b : ℂ) : ℂ × ℂ :=
  if Complex.abs b = 0 then
    let r : ℝ := Complex.abs a
    ((starRingEnd ℂ) a / r, 0)
  else if Complex.abs a = 0 then
    let r : ℝ := Complex.abs b
    (0, (starRingEnd ℂ) b / r)
  else if Complex.abs a < Complex.abs b then
    let absb : ℝ := Complex.abs b
    let t : ℂ := (starRingEnd ℂ) a / (absb : ℂ)
    let u : ℝ := Real.sqrt (1 + t.re ^ 2 + t.im ^ 2)
    (t / (u : ℂ), ((starRingEnd ℂ) b / (absb : ℂ)) / (u : ℂ))
  else
    let absa : ℝ := Complex.abs a
    let t : ℂ := (starRingEnd ℂ) b / (absa : ℂ)
    let u : ℝ := Real.sqrt (1 + t.re ^ 2 + t.im ^ 2)
    (((starRingEnd ℂ) a / (absa : ℂ)) / (u : ℂ), t / (u : ℂ))

noncomputable def _givens (a b : ℂ) : Matrix (Fin 2) (Fin 2) ℂ :=
  let c := (givens_cs a b).1
  let s := (givens_cs a b).2
  !![c, s; -(starRingEnd ℂ) s, (starRingEnd ℂ) c]

/-! ### `get_projection` (source lines 498-548)

`get_projection(W, AW, b, x0, inner_product)` sets `E = inner_product(W, AW)`,
returns the projection `P(x) = x - W * solve(E, inner_product(AW, x))` and the
adapted initial guess `x0new = P(x0) + W * solve(E, inner_product(W, b))`.
The exact dense solve `np.linalg.solve(E, y)` is modeled as `E⁻¹ * y` (they
agree whenever `E` is invertible, which the correctness theorem assumes).
The caller-supplied `inner_product` is a parameter, taken at the two column
shapes the source uses. -/

noncomputable def get_projection {N k : ℕ}
    (W AW : Matrix (Fin N) (Fin k) ℂ) (b x0 : Matrix (Fin N) (Fin 1) ℂ)
    (ip : (m n : ℕ) → Matrix (Fin N) (Fin m) ℂ → Matrix (Fin N) (Fin n) ℂ →
      Matrix (Fin m) (Fin n) ℂ) :
    (Matrix (Fin N) (Fin 1) ℂ → Matrix (Fin N) (Fin 1) ℂ) ×
      Matrix (Fin N) (Fin 1) ℂ :=
  let E := ip k k W AW
  let Pfun := fun x => x - W * (E⁻¹ * ip k 1 AW x)
  let EWb := E⁻¹ * ip k 1 W b
  (Pfun, Pfun x0 + W * EWb)

/-- The Euclidean inner product `_ipstd` (source lines 29-42), `X^H * Y`,
here instantiated at matrices over `ℂ`. -/
noncomputable def _ipstd {N : ℕ} (m n : ℕ) (X : Matrix (Fin N) (Fin m) ℂ)
    (Y : Matrix (Fin N) (Fin n) ℂ) : Matrix (Fin m) (Fin n) ℂ :=
  X.conjTranspose * Y

/-! ### `qr` (source lines 900-924)

`qr(W, inner_product)` orthogonalizes the columns of `W` left to right: for
column `i` it subtracts, one by one, the components along the already-built
columns `Q[:,j]` (recording `R[j,i]`), then sets
`R[i,i] = sqrt(abs(inner_product(Q_i, Q_i)))` and divides the column by it.
Columns live in an abstract complex inner product space (the source's
`inner_product` argument together with the column vectors), `mgsPass`
is the inner `for j` loop and `qrCols` the outer `for i` loop; the
accumulator list is the set of already-finished columns of `Q`.
Each output entry is `(Q-column, off-diagonal R-column entries, R[i,i])`. -/

def mgsPass {V : Type} [NormedAddCommGroup V] [InnerProductSpace ℂ V]
    (v : V) : List V → V × List ℂ
  | [] => (v, [])
  | q :: Q =>
    let r : ℂ := inner q v
    let rest := mgsPass (v - r • q) Q
    (rest.1, r :: rest.2)

noncomputable def qrCols {V : Type} [NormedAddCommGroup V] [InnerProductSpace ℂ V] :
    List V → List V → List (V × List ℂ × ℝ)
  | _, [] => []
  | Qacc, w :: ws =>
    let p := mgsPass w Qacc
    let d : ℂ := inner p.1 p.1
    let rii : ℝ := Real.sqrt (Complex.abs d)
    let q : V := ((rii : ℂ))⁻¹ • p.1
    (q, p.2, rii) :: qrCols (Qacc ++ [q]) ws

noncomputable def qr {V : Type} [NormedAddCommGroup V] [InnerProductSpace ℂ V]
    (Ws : List V) : List (V × List ℂ × ℝ) :=
  qrCols [] Ws

/-- Orthonormality of a list of vectors, `inner_product(Q, Q) = I` in the
source's matrix notation: unit diagonal and vanishing off-diagonal entries. -/
def ONList {V : Type} [NormedAddCommGroup V] [InnerProductSpace ℂ V]
    (L : List V) : Prop :=
  L.Pairwise (fun x y => (inner x y : ℂ) = 0 ∧ (inner y x : ℂ) = 0) ∧
    ∀ x ∈ L, (inner x x : ℂ) = 1

/-! ### Residual-tracking skeletons of `minres` and `gmres`
(source lines 283 and 437-469, resp. 781 and 810-838)

Both solvers append one relative-residual entry per iteration and keep a
convergence flag `info`.  The numerical linear algebra of an iteration is
abstracted into two oracles, exactly the two quantities the residual logic of
the source reads in iteration `k`:

* `upd k`  — the implicit (updated) estimate `abs(y)/norm_MMlb`;
* `expl k` — the explicitly recomputed residual norm of the iterate `xk`
             (`compute_norm_r_exp` in minres, `_compute_explicit_residual`
             in gmres).

`er` is the `explicit_residual` flag.  minres: the appended entry is checked
with `<= tol` (or last iteration), then replaced by the explicit residual,
`info = 1` if that stays `> tol` in the last iteration, and the entry is
floored at machine epsilon.  gmres: same structure but the trigger is the
strict `< tol`, the failure check is `>= tol`, and there is no flooring. -/

def machineEps : ℚ := 1 / 2 ^ 52

structure KSState where
  relresvec : List ℚ
  info : ℤ
  k : ℕ

def lastRes (s : KSState) : ℚ := s.relresvec.getLastD 0

def minresStep (tol : ℚ) (maxiter : ℕ) (er : Bool) (upd expl : ℕ → ℚ)
    (s : KSState) : KSState :=
  let e0 : ℚ := if er then expl s.k else upd s.k
  let p : ℚ × ℤ :=
    if e0 ≤ tol ∨ s.k + 1 = maxiter then
      let e1 : ℚ := if er then e0 else expl s.k
      (e1, if e1 > tol ∧ s.k + 1 = maxiter then 1 else s.info)
    else
      (e0, s.info)
  { relresvec := s.relresvec ++ [max machineEps p.1], info := p.2, k := s.k + 1 }

def minresLoopGo (tol : ℚ) (maxiter : ℕ) (er : Bool) (upd expl : ℕ → ℚ) :
    ℕ → KSState → KSState
  | 0, s => s
  | fuel + 1, s =>
    if lastRes s > tol ∧ s.k < maxiter then
      minresLoopGo tol maxiter er upd expl fuel (minresStep tol maxiter er upd expl s)
    else s

def minresRun (tol : ℚ) (maxiter : ℕ) (er : Bool) (upd expl : ℕ → ℚ)
    (r0 : ℚ) : KSState :=
  minresLoopGo tol maxiter er upd expl maxiter { relresvec := [r0], info := 0, k := 0 }

def gmresStep (tol : ℚ) (maxiter : ℕ) (er : Bool) (upd expl : ℕ → ℚ)
    (s : KSState) : KSState :=
  let e0 : ℚ := if er then expl s.k else upd s.k
  let p : ℚ × ℤ :=
    if e0 < tol ∨ s.k + 1 = maxiter then
      let e1 : ℚ := if er then e0 else expl s.k
      (e1, if e1 ≥ tol ∧ s.k + 1 = maxiter then 1 else s.info)
    else
      (e0, s.info)
  { relresvec := s.relresvec ++ [p.1], info := p.2, k := s.k + 1 }

def gmresLoopGo (tol : ℚ) (maxiter : ℕ) (er : Bool) (upd expl : ℕ → ℚ) :
    ℕ → KSState → KSState
  | 0, s => s
  | fuel + 1, s =>
    if lastRes s > tol ∧ s.k < maxiter then
      gmresLoopGo tol maxiter er upd expl fuel (gmresStep tol maxiter er upd expl s)
    else s

def gmresRun (tol : ℚ) (maxiter : ℕ) (er : Bool) (upd expl : ℕ → ℚ)
    (r0 : ℚ) : KSState :=
  gmresLoopGo tol maxiter er upd expl maxiter { relresvec := [r0], info := 0, k := 0 }

/-! ### `newton` (source lines 928-1114)

Control-flow skeleton of the outer Newton loop.  The collaborator objects the
source receives as arguments are abstracted into an oracle:

* `normF x` embeds `_norm(model_evaluator.compute_f(x), ...)`, the residual
  norm of the iterate `x` under the model's inner product;
* `solver k x eta maxiter return_basis` embeds the `linear_solver(...)` call
  of iteration `k` (the Jacobian, right-hand side, deflation projector and
  adapted initial guess are functions of `x` and `k` computed from the same
  collaborators, so they are absorbed into the oracle).

The deflation-basis bookkeeping (`qr`, `orth_vec`, `get_projection`,
`get_ritz`) only feeds the solver call and is likewise absorbed; it does not
touch the observables of the claims (`x`, `Fx_norms`, `error_code`, `eta`,
the `maxiter` passed on).  The state carries `linear_solver_maxiter` because
the source reassigns that variable when it caps it, and a ghost trace
`maxiter_trace` recording the `maxiter` argument of every solver call.

`golden` (`scipy.constants.golden`) and the real power `x ** y` appearing in
the `type 1` / `type 2` forcing terms are abstract parameters: the claims
below do not depend on their values, so every theorem quantifies over them. -/

structure LinOut (α : Type) where
  xk : α
  info : ℤ
  relresvec : List ℚ

structure NewtonOracle (α : Type) where
  normF : α → ℚ
  solver : ℕ → α → ℚ → Option ℕ → Bool → LinOut α

structure NewtonParams where
  nonlinear_tol : ℚ
  newton_maxiter : ℕ
  linear_solver_maxiter : Option ℕ
  forcing_term : String
  eta0 : ℚ
  eta_min : ℚ
  eta_max : ℚ
  alpha : ℚ
  gamma : ℚ
  num_deflation_vectors : ℕ
  N : ℕ
  golden : ℚ
  rpow : ℚ → ℚ → ℚ

/-- Python 2 `min` on `(linear_solver_maxiter, cap)`: `None` compares below
every integer in Python 2, so `min(None, cap) = None`. -/
def py2min (a : Option ℕ) (b : ℕ) : Option ℕ :=
  match a with
  | none => none
  | some m => some (min m b)

/-- The memory cap `int(floor(0.5 * 2**30 / (2 * 16 * len(x))))` of source
line 1045 (exact integer arithmetic; `0.5 * 2**30 = 2^29` exactly). -/
def memCap (N : ℕ) : ℕ := 2 ^ 29 / (32 * N)

/-- Defaulting of the `maxiter` argument inside the linear solvers
(`minres` source lines 204-206, `gmres` lines 727-729): `None` becomes
`len(b) = N`. -/
def minresEffectiveMaxiter (maxiter : Option ℕ) (N : ℕ) : ℕ :=
  maxiter.getD N

structure NewtonState (α : Type) where
  x : α
  k : ℕ
  Fx_norms : List ℚ
  eta_previous : Option ℚ
  lsm : Option ℕ
  prev_relres_last : ℚ
  linear_relresvecs : List (List ℚ)
  maxiter_trace : List (Option ℕ)

/-- Forcing-term selection (source lines 972-984).  `prev_rr` is
`out["relresvec"][-1]` of the previous iteration's solve (only read in the
`type 1` branch, which is only reachable from the second iteration on). -/
def newtonEta (p : NewtonParams) (eta_previous : Option ℚ)
    (lastF prevF prev_rr : ℚ) : Except String ℚ :=
  match eta_previous with
  | none => Except.ok p.eta0
  | some ep =>
    if p.forcing_term = "constant" then Except.ok p.eta0
    else if p.forcing_term = "type 1" then
      Except.ok (min (max (max (|lastF - prev_rr| / prevF) (p.rpow ep p.golden))
        p.eta_min) p.eta_max)
    else if p.forcing_term = "type 2" then
      Except.ok (min (max (max (p.gamma * p.rpow (lastF / prevF) p.alpha)
        (p.gamma * p.rpow ep p.alpha)) p.eta_min) p.eta_max)
    else Except.error "Unknown forcing term"

/-- One iteration of the Newton `while` loop body (source lines 960-1109). -/
def newtonStep {α : Type} [Add α] (p : NewtonParams) (o : NewtonOracle α)
    (s : NewtonState α) : Except String (NewtonState α) :=
  (newtonEta p s.eta_previous (s.Fx_norms.getLastD 0)
      (s.Fx_norms.dropLast.getLastD 0) s.prev_relres_last).map fun eta =>
    let lsm1 : Option ℕ :=
      if 0 < p.num_deflation_vectors then py2min s.lsm (memCap p.N) else s.lsm
    let rb : Bool := if 0 < p.num_deflation_vectors then true else false
    let out := o.solver s.k s.x eta lsm1 rb
    let x1 := s.x + out.xk
    { x := x1
      k := s.k + 1
      Fx_norms := s.Fx_norms ++ [o.normF x1]
      eta_previous := some eta
      lsm := lsm1
      prev_relres_last := out.relresvec.getLastD 0
      linear_relresvecs := s.linear_relresvecs ++ [out.relresvec]
      maxiter_trace := s.maxiter_trace ++ [lsm1] }

def newtonLoopGo {α : Type} [Add α] (p : NewtonParams) (o : NewtonOracle α) :
    ℕ → NewtonState α → Except String (NewtonState α)
  | 0, s => Except.ok s
  | fuel + 1, s =>
    if s.Fx_norms.getLastD 0 > p.nonlinear_tol ∧ s.k < p.newton_maxiter then
      (newtonStep p o s).bind (newtonLoopGo p o fuel)
    else Except.ok s

/-- The embedded `newton`: returns `(x, error_code, Fx_norms,
linear_relresvecs, maxiter_trace)`; the last component is the ghost trace of
the `maxiter` arguments handed to the linear solver. -/
def newton {α : Type} [Add α] (p : NewtonParams) (o : NewtonOracle α)
    (x0 : α) : Except String (α × ℤ × List ℚ × List (List ℚ) × List (Option ℕ)) :=
  (newtonLoopGo p o p.newton_maxiter
      { x := x0
        k := 0
        Fx_norms := [o.normF x0]
        eta_previous := none
        lsm := p.linear_solver_maxiter
        prev_relres_last := 0
        linear_relresvecs := []
        maxiter_trace := [] }).map fun s =>
    (s.x, if s.k = p.newton_maxiter then 1 else 0, s.Fx_norms,
      s.linear_relresvecs, s.maxiter_trace)

/-- The iterate after the first Newton iteration, unfolded from
`newtonStep` at the initial state (the first iteration always uses
`eta = eta0` because `eta_previous is None`); used to state hypotheses about
runs that enter a second iteration. -/
def newtonFirstIterate {α : Type} [Add α] (p : NewtonParams)
    (o : NewtonOracle α) (x0 : α) : α :=
  x0 + (o.solver 0 x0 p.eta0
    (if 0 < p.num_deflation_vectors then py2min p.linear_solver_maxiter (memCap p.N)
      else p.linear_solver_maxiter)
    (if 0 < p.num_deflation_vectors then true else false)).xk

/-! ### `get_ritz` with empty deflation basis (source lines 550-678)

Embedding of `get_ritz(W, AW, Vfull, Hfull, M, Minv, inner_product)`
specialized to an empty deflation basis `W` (`nW = 0`) — the shape of the
call made on the first Newton iteration whenever subspace recycling is
requested.  With `nW = 0` the source's blocks are empty
(`E : 0x0`, `B1 = inner_product(AW, Vfull) : 0x(n+1)`, `B : 0xn`,
`Einv = np.zeros((0,0))`, `MAW : Nx0`), so

* `ritzmat = Hfull[0:-1, :]`  (the `B`-terms vanish),
* `CC = eye(nVfull)`  (its only nonempty block),
* `z = np.dot(Hfull, v) - np.r_[mu * v, 0]` for the eigenpair `(mu, v)`,
* `res_ip = z^H * CC * z = z^H z`, `norm_ritz_res[i] = sqrt(abs(res_ip))`.

The external Hermitian eigensolver `scipy.linalg.eigh(ritzmat)` is modeled by
the parameters `lam, U`; the theorem using this embedding carries the
eigendecomposition facts (`ritzmat * U = U * diag(lam)`, `U` orthogonal,
`lam` ascending) that `eigh` guarantees.  Data here is real-valued
(conjugation is the identity on the inputs considered), scalars are `ℚ`
except for the final square root.

`argsortAbs` embeds line 672, `sorti = np.argsort(abs(lam))`: the returned
triple is permuted by the sort order of the *eigenvalue magnitudes* (ties
cannot occur at the inputs considered, so sort stability is irrelevant). -/

def ritzmat0 {n : ℕ} (Hfull : Matrix (Fin (n + 1)) (Fin n) ℚ) :
    Matrix (Fin n) (Fin n) ℚ :=
  Matrix.of fun i j => Hfull (Fin.castSucc i) j

/-- The residual vector `z` of eigenpair `i` (source lines 645-648, `nW = 0`):
`z = Hfull * v - [mu * v; 0]` where `v = U[:, i]`, `mu = lam[i]`. -/
def ritzZ {n : ℕ} (Hfull : Matrix (Fin (n + 1)) (Fin n) ℚ)
    (lam : Fin n → ℚ) (U : Matrix (Fin n) (Fin n) ℚ) (i : Fin n) :
    Fin (n + 1) → ℚ :=
  fun r =>
    Hfull.mulVec (fun j => U j i) r -
      (if h : (r : ℕ) < n then lam i * U ⟨r, h⟩ i else 0)

/-- `res_ip = _ipstd(z, CC * z)` with `CC = eye(n+1)` (source lines 649-650). -/
def ritzResIp {n : ℕ} (Hfull : Matrix (Fin (n + 1)) (Fin n) ℚ)
    (lam : Fin n → ℚ) (U : Matrix (Fin n) (Fin n) ℚ) (i : Fin n) : ℚ :=
  ∑ r, ritzZ Hfull lam U i r * ritzZ Hfull lam U i r

/-- `norm_ritz_res[i] = np.sqrt(abs(res_ip))` (source line 657). -/
noncomputable def norm_ritz_res0 {n : ℕ} (Hfull : Matrix (Fin (n + 1)) (Fin n) ℚ)
    (lam : Fin n → ℚ) (U : Matrix (Fin n) (Fin n) ℚ) (i : Fin n) : ℝ :=
  Real.sqrt ((|ritzResIp Hfull lam U i| : ℚ) : ℝ)

/-- `sorti = np.argsort(abs(lam))` (source line 672), as a stable insertion
sort of the index list by eigenvalue magnitude. -/
def argsortAbs {n : ℕ} (lam : Fin n → ℚ) : List (Fin n) :=
  List.insertionSort (fun i j => |lam i| ≤ |lam j|) (List.finRange n)

/-- The returned triple `(ritz_vals, ritz_vecs, norm_ritz_res)` (source lines
671-678, `nW = 0`): all three permuted by `sorti`;
`ritz_vecs[:, i] = Vfull[:, 0:-1] * U[:, sorti[i]]`. -/
noncomputable def get_ritz0 {N n : ℕ} (Vfull : Matrix (Fin N) (Fin (n + 1)) ℚ)
    (Hfull : Matrix (Fin (n + 1)) (Fin n) ℚ) (lam : Fin n → ℚ)
    (U : Matrix (Fin n) (Fin n) ℚ) :
    List ℚ × List (Fin N → ℚ) × List ℝ :=
  let sorti := argsortAbs lam
  (sorti.map lam,
    sorti.map (fun i => fun r => ∑ j, Vfull r (Fin.castSucc j) * U j i),
    sorti.map (norm_ritz_res0 Hfull lam U))

/-! ### Concrete instances used by the counterexamples and failing inputs -/

/-- A Lanczos matrix `Hfull` as produced by two MINRES iterations on the
symmetric tridiagonal operator `[[73/25, 36/25, 0], [36/25, 52/25, 1],
[0, 1, *]]` with starting residual `e1` (then `Vfull = I`). -/
def HfullEx : Matrix (Fin 3) (Fin 2) ℚ :=
  !![73/25, 36/25; 36/25, 52/25; 0, 1]

def VfullEx : Matrix (Fin 3) (Fin 3) ℚ := 1

/-- The eigenvalues `scipy.linalg.eigh` returns for
`ritzmat0 HfullEx = [[73/25, 36/25], [36/25, 52/25]]`, in ascending order. -/
def lamEx : Fin 2 → ℚ := ![1, 4]

/-- The corresponding orthonormal eigenvector matrix (columns are
eigenvectors for `lamEx 0 = 1` and `lamEx 1 = 4`). -/
def UEx : Matrix (Fin 2) (Fin 2) ℚ :=
  !![3/5, 4/5; -4/5, 3/5]

/-- Oracle of a one-dimensional Newton run on `ℤ` iterates: the residual norm
is `1` at the start and `0` after the first update `x += 1`. -/
def oracleConv1 : NewtonOracle ℤ where
  normF := fun x => if x = 0 then 1 else 0
  solver := fun _ _ _ _ _ => { xk := 1, info := 0, relresvec := [1] }

/-- Oracle whose residual norms never drop below the tolerance `0`. -/
def oracleStuck : NewtonOracle ℤ where
  normF := fun _ => 1
  solver := fun _ _ _ _ _ => { xk := 1, info := 0, relresvec := [1] }

/-- Newton parameters: `constant` forcing, budget of exactly one outer
iteration (the run converges exactly on that last allowed iteration). -/
def paramsC2 : NewtonParams where
  nonlinear_tol := 0
  newton_maxiter := 1
  linear_solver_maxiter := none
  forcing_term := "constant"
  eta0 := 1/10
  eta_min := 1/10^6
  eta_max := 1/10^2
  alpha := 3/2
  gamma := 9/10
  num_deflation_vectors := 0
  N := 1
  golden := 2
  rpow := fun _ _ => 0

/-- Newton parameters with an unknown forcing-term name and a budget that the
run does not exhaust. -/
def paramsC3 : NewtonParams :=
  { paramsC2 with forcing_term := "bogus", newton_maxiter := 5 }

/-- Newton parameters with an unknown forcing-term name for a run that enters
a second iteration. -/
def paramsC3b : NewtonParams :=
  { paramsC2 with forcing_term := "bogus", newton_maxiter := 2 }

/-- Newton parameters requesting subspace recycling
(`num_deflation_vectors > 0`) with the default `linear_solver_maxiter = None`
on a problem of dimension `N = 4097`, for which the uncapped basis storage
`2 * 16 * N * N` bytes exceeds the `0.5 GiB = 2^29` bytes budget. -/
def paramsC4 : NewtonParams :=
  { paramsC2 with num_deflation_vectors := 1, newton_maxiter := 2, N := 4097 }

/-- Newton parameters identical to `paramsC2` except for a slack outer budget
(five iterations), so the same run converges before the budget and returns
`error_code = 0`. -/
def paramsC2b : NewtonParams :=
  { paramsC2 with newton_maxiter := 5 }

/-! ## Theorems -/

/-- C6: for every vector `x` (and optional `Mx`) and inner product, the norm
computation raises an error exactly when the quadratic form
`rho = <x, Mx>` (or `<x, x>`) has `|Im rho| > 1e-10 * |rho|` or `Re rho < 0`;
otherwise it raises nothing and returns `sqrt (Re rho)`. -/
theorem norm_error_iff {V : Type} (x : V) (Mx : Option V) (ip : V → V → ℂ) :
    ((∃ e, _norm x Mx ip = Except.error e) ↔
      (|(quadForm x Mx ip).im| > Complex.abs (quadForm x Mx ip) * (1 / 10 ^ 10) ∨
        (quadForm x Mx ip).re < 0))
    ∧ (¬(|(quadForm x Mx ip).im| > Complex.abs (quadForm x Mx ip) * (1 / 10 ^ 10) ∨
        (quadForm x Mx ip).re < 0) →
      _norm x Mx ip = Except.ok (Real.sqrt (quadForm x Mx ip).re)) := by
  unfold _norm _norm_squared
  dsimp only
  split_ifs with h1 h2
  · constructor
    · constructor
      · intro _
        exact Or.inl h1
      · intro _
        exact ⟨"M not positive definite?", by simp [Except.map]⟩
    · intro hcon
      exact absurd (Or.inl h1) hcon
  · constructor
    · constructor
      · intro _
        exact Or.inr h2
      · intro _
        exact ⟨"<x,Mx> negative. M not positive definite?", by simp [Except.map]⟩
    · intro hcon
      exact absurd (Or.inr h2) hcon
  · constructor
    · constructor
      · rintro ⟨e, he⟩
        simp [Except.map] at he
      · rintro (h | h)
        · exact absurd h h1
        · exact absurd h h2
    · intro _
      simp [Except.map]

theorem norm_error_iff_witness :
    _norm () none (fun _ _ => (1 : ℂ)) = Except.ok 1 := by
  have h := (norm_error_iff () none (fun _ _ => (1 : ℂ))).2 (by
    norm_num [quadForm])
  simpa [quadForm] using h

/-- C10: `(a, b) = (0, 0)` is outside `_givens`'s domain: the first branch
(`abs(b) == 0`) is taken and its divisor is `r = abs(a) = 0` — the source's
division by zero produces no rotation (NaN/ZeroDivisionError); under the
embedding's total division the result is the zero matrix, which in
particular fails `|c|^2 + |s|^2 = 1`. -/
theorem givens_zero_zero_breakdown :
    Complex.abs (0 : ℂ) = 0 ∧ givens_cs 0 0 = (0, 0) ∧ _givens 0 0 = 0 ∧
      ¬(Complex.abs (givens_cs 0 0).1 ^ 2 + Complex.abs (givens_cs 0 0).2 ^ 2 = 1) := by
  have h2 : givens_cs 0 0 = (0, 0) := by simp [givens_cs]
  refine ⟨by simp, h2, ?_, ?_⟩
  · ext i j
    fin_cases i <;> fin_cases j <;> simp [_givens, h2]
  · rw [h2]
    norm_num

/-- C5 counterexample: at the input `(a, b) = (0, 0)` — a pair of complex
scalars — the claimed properties of `_givens` fail: the first branch divides
by `r = abs(a) = 0` and no unit rotation is produced. -/
theorem givens_property_fails_at_zero :
    ¬(Complex.abs (givens_cs 0 0).1 ^ 2 + Complex.abs (givens_cs 0 0).2 ^ 2 = 1 ∧
      Matrix.mulVec (_givens 0 0) ![0, 0] 1 = 0 ∧
      ∃ r : ℝ, 0 ≤ r ∧ Matrix.mulVec (_givens 0 0) ![0, 0] 0 = (r : ℂ)) := by
  intro hc
  have h2 : givens_cs 0 0 = (0, 0) := by simp [givens_cs]
  have h1 := hc.1
  rw [h2] at h1
  norm_num at h1

/-- C5 (amended): for every pair of complex scalars with `(a, b) != (0, 0)`,
`_givens a b` is the matrix `[[c, s], [-conj(s), conj(c)]]` built from the
branch-computed pair `(c, s)`, with `|c|^2 + |s|^2 = 1`; multiplied with the
column `[a; b]` the second coordinate is exactly zero and the first is a real
non-negative `r`.  (At `(0, 0)` the source divides by zero, so that input is
excluded; see the counterexample and C10.) -/
theorem givens_rotation_spec (a b : ℂ) (hab : ¬(a = 0 ∧ b = 0)) :
    _givens a b = !![(givens_cs a b).1, (givens_cs a b).2;
        -(starRingEnd ℂ) (givens_cs a b).2, (starRingEnd ℂ) (givens_cs a b).1] ∧
    Complex.abs (givens_cs a b).1 ^ 2 + Complex.abs (givens_cs a b).2 ^ 2 = 1 ∧
    Matrix.mulVec (_givens a b) ![a, b] 1 = 0 ∧
    ∃ r : ℝ, 0 ≤ r ∧ Matrix.mulVec (_givens a b) ![a, b] 0 = (r : ℂ) := by
  have hmv0 : Matrix.mulVec (_givens a b) ![a, b] 0
      = (givens_cs a b).1 * a + (givens_cs a b).2 * b := by
    simp [_givens, Matrix.mulVec, Matrix.dotProduct, Fin.sum_univ_two]
  have hmv1 : Matrix.mulVec (_givens a b) ![a, b] 1
      = -(starRingEnd ℂ) (givens_cs a b).2 * a + (starRingEnd ℂ) (givens_cs a b).1 * b := by
    simp [_givens, Matrix.mulVec, Matrix.dotProduct, Fin.sum_univ_two]
  suffices h : Complex.abs (givens_cs a b).1 ^ 2 + Complex.abs (givens_cs a b).2 ^ 2 = 1 ∧
      (-(starRingEnd ℂ) (givens_cs a b).2 * a + (starRingEnd ℂ) (givens_cs a b).1 * b = 0) ∧
      (∃ r : ℝ, 0 ≤ r ∧ (givens_cs a b).1 * a + (givens_cs a b).2 * b = (r : ℂ)) by
    obtain ⟨r, hr, he⟩ := h.2.2
    exact ⟨rfl, h.1, by rw [hmv1]; exact h.2.1, ⟨r, hr, by rw [hmv0]; exact he⟩⟩
  unfold givens_cs
  split_ifs with hb ha hlt
  · -- branch 1: abs b = 0
    dsimp only
    have hb0 : b = 0 := by simpa using hb
    have ha0 : a ≠ 0 := fun h0 => hab ⟨h0, hb0⟩
    have hna : Complex.normSq a ≠ 0 := by
      simpa [Complex.normSq_eq_zero] using ha0
    refine ⟨?_, ?_, ?_⟩
    · rw [Complex.sq_abs, Complex.sq_abs]
      rw [map_div₀ Complex.normSq, Complex.normSq_conj, Complex.normSq_ofReal,
        Complex.mul_self_abs]
      simp [div_self hna]
    · simp [hb0]
    · refine ⟨Complex.normSq a / Complex.abs a,
        div_nonneg (Complex.normSq_nonneg a) (AbsoluteValue.nonneg Complex.abs a), ?_⟩
      rw [hb0, mul_zero, add_zero, div_mul_eq_mul_div, mul_comm, Complex.mul_conj]
      push_cast
      ring
  · -- branch 2: abs b ≠ 0, abs a = 0
    dsimp only
    have ha0 : a = 0 := by simpa using ha
    have hb0 : b ≠ 0 := by
      intro h0
      exact hb (by simp [h0])
    have hnb : Complex.normSq b ≠ 0 := by
      simpa [Complex.normSq_eq_zero] using hb0
    refine ⟨?_, ?_, ?_⟩
    · rw [Complex.sq_abs, Complex.sq_abs]
      rw [map_div₀ Complex.normSq, Complex.normSq_conj, Complex.normSq_ofReal,
        Complex.mul_self_abs]
      simp [div_self hnb]
    · simp [ha0]
    · refine ⟨Complex.normSq b / Complex.abs b,
        div_nonneg (Complex.normSq_nonneg b) (AbsoluteValue.nonneg Complex.abs b), ?_⟩
      rw [ha0, mul_zero, zero_add, div_mul_eq_mul_div, mul_comm, Complex.mul_conj]
      push_cast
      ring
  · -- branch 3: abs a < abs b, both nonzero
    dsimp only
    have hb0 : b ≠ 0 := by
      intro h0
      exact hb (by simp [h0])
    have ha0 : a ≠ 0 := by
      intro h0
      exact ha (by simp [h0])
    set t : ℂ := (starRingEnd ℂ) a / ((Complex.abs b : ℝ) : ℂ) with ht
    set u : ℝ := Real.sqrt (1 + t.re ^ 2 + t.im ^ 2) with hu
    have htn : 1 + t.re ^ 2 + t.im ^ 2 = 1 + Complex.normSq t := by
      rw [Complex.normSq_apply]
      ring
    have hq := Complex.normSq_nonneg t
    have hupos : 0 < u := by
      rw [hu, htn]
      exact Real.sqrt_pos.mpr (by linarith)
    have hu2 : u ^ 2 = 1 + Complex.normSq t := by
      rw [hu, htn]
      exact Real.sq_sqrt (by linarith)
    have hnb : Complex.normSq b ≠ 0 := by
      simpa [Complex.normSq_eq_zero] using hb0
    have habsb : (Complex.abs b : ℝ) ≠ 0 := by
      simpa using hb0
    have hun : u ≠ 0 := ne_of_gt hupos
    have hnt : Complex.normSq t = Complex.normSq a / Complex.normSq b := by
      rw [ht, map_div₀, Complex.normSq_conj, Complex.normSq_ofReal, Complex.mul_self_abs]
    have hbc : ((Complex.abs b : ℝ) : ℂ) ≠ 0 := Complex.ofReal_ne_zero.mpr habsb
    have huc : ((u : ℝ) : ℂ) ≠ 0 := Complex.ofReal_ne_zero.mpr hun
    have huu : u * u ≠ 0 := mul_ne_zero hun hun
    refine ⟨?_, ?_, ?_⟩
    · rw [Complex.sq_abs, Complex.sq_abs]
      simp only [map_div₀, Complex.normSq_conj, Complex.normSq_ofReal, Complex.mul_self_abs]
      rw [div_self hnb, div_add_div_same, div_eq_one_iff_eq huu]
      rw [← pow_two, hu2, hnt]
      ring
    · have e1 : (starRingEnd ℂ) (((starRingEnd ℂ) b / ((Complex.abs b : ℝ) : ℂ)) / ((u : ℝ) : ℂ))
          = b / ((Complex.abs b : ℝ) : ℂ) / ((u : ℝ) : ℂ) := by
        rw [map_div₀, map_div₀, Complex.conj_conj, Complex.conj_ofReal, Complex.conj_ofReal]
      have e2 : (starRingEnd ℂ) (t / ((u : ℝ) : ℂ))
          = a / ((Complex.abs b : ℝ) : ℂ) / ((u : ℝ) : ℂ) := by
        rw [ht, map_div₀, map_div₀, Complex.conj_conj, Complex.conj_ofReal, Complex.conj_ofReal]
      rw [e1, e2]
      ring
    · refine ⟨(Complex.normSq a + Complex.normSq b) / (Complex.abs b * u),
        div_nonneg (add_nonneg (Complex.normSq_nonneg a) (Complex.normSq_nonneg b))
          (mul_nonneg (AbsoluteValue.nonneg Complex.abs b) hupos.le), ?_⟩
      have h1 : a * (starRingEnd ℂ) a = ((Complex.normSq a : ℝ) : ℂ) := Complex.mul_conj a
      have h2 : b * (starRingEnd ℂ) b = ((Complex.normSq b : ℝ) : ℂ) := Complex.mul_conj b
      rw [ht]
      push_cast
      field_simp
      linear_combination h1 + h2
  · -- branch 4: abs b <= abs a, both nonzero
    dsimp only
    have hb0 : b ≠ 0 := by
      intro h0
      exact hb (by simp [h0])
    have ha0 : a ≠ 0 := by
      intro h0
      exact ha (by simp [h0])
    set t : ℂ := (starRingEnd ℂ) b / ((Complex.abs a : ℝ) : ℂ) with ht
    set u : ℝ := Real.sqrt (1 + t.re ^ 2 + t.im ^ 2) with hu
    have htn : 1 + t.re ^ 2 + t.im ^ 2 = 1 + Complex.normSq t := by
      rw [Complex.normSq_apply]
      ring
    have hq := Complex.normSq_nonneg t
    have hupos : 0 < u := by
      rw [hu, htn]
      exact Real.sqrt_pos.mpr (by linarith)
    have hu2 : u ^ 2 = 1 + Complex.normSq t := by
      rw [hu, htn]
      exact Real.sq_sqrt (by linarith)
    have hna : Complex.normSq a ≠ 0 := by
      simpa [Complex.normSq_eq_zero] using ha0
    have habsa : (Complex.abs a : ℝ) ≠ 0 := by
      simpa using ha0
    have hun : u ≠ 0 := ne_of_gt hupos
    have hnt : Complex.normSq t = Complex.normSq b / Complex.normSq a := by
      rw [ht, map_div₀, Complex.normSq_conj, Complex.normSq_ofReal, Complex.mul_self_abs]
    have hac : ((Complex.abs a : ℝ) : ℂ) ≠ 0 := Complex.ofReal_ne_zero.mpr habsa
    have huc : ((u : ℝ) : ℂ) ≠ 0 := Complex.ofReal_ne_zero.mpr hun
    have huu : u * u ≠ 0 := mul_ne_zero hun hun
    refine ⟨?_, ?_, ?_⟩
    · rw [Complex.sq_abs, Complex.sq_abs]
      simp only [map_div₀, Complex.normSq_conj, Complex.normSq_ofReal, Complex.mul_self_abs]
      rw [div_self hna, div_add_div_same, div_eq_one_iff_eq huu]
      rw [← pow_two, hu2, hnt]
    · have e1 : (starRingEnd ℂ) (t / ((u : ℝ) : ℂ))
          = b / ((Complex.abs a : ℝ) : ℂ) / ((u : ℝ) : ℂ) := by
        rw [ht, map_div₀, map_div₀, Complex.conj_conj, Complex.conj_ofReal, Complex.conj_ofReal]
      have e2 : (starRingEnd ℂ) (((starRingEnd ℂ) a / ((Complex.abs a : ℝ) : ℂ)) / ((u : ℝ) : ℂ))
          = a / ((Complex.abs a : ℝ) : ℂ) / ((u : ℝ) : ℂ) := by
        rw [map_div₀, map_div₀, Complex.conj_conj, Complex.conj_ofReal, Complex.conj_ofReal]
      rw [e2, e1]
      ring
    · refine ⟨(Complex.normSq a + Complex.normSq b) / (Complex.abs a * u),
        div_nonneg (add_nonneg (Complex.normSq_nonneg a) (Complex.normSq_nonneg b))
          (mul_nonneg (AbsoluteValue.nonneg Complex.abs a) hupos.le), ?_⟩
      have h1 : a * (starRingEnd ℂ) a = ((Complex.normSq a : ℝ) : ℂ) := Complex.mul_conj a
      have h2 : b * (starRingEnd ℂ) b = ((Complex.normSq b : ℝ) : ℂ) := Complex.mul_conj b
      rw [ht]
      push_cast
      field_simp
      linear_combination h1 + h2

theorem givens_rotation_spec_witness :
    Complex.abs (givens_cs 3 4).1 ^ 2 + Complex.abs (givens_cs 3 4).2 ^ 2 = 1 ∧
      Matrix.mulVec (_givens 3 4) ![3, 4] 1 = 0 ∧
      ∃ r : ℝ, 0 ≤ r ∧ Matrix.mulVec (_givens 3 4) ![3, 4] 0 = (r : ℂ) := by
  have h := givens_rotation_spec 3 4 (by
    intro hc
    have h3 : (3 : ℂ) ≠ 0 := by norm_num
    exact h3 hc.1)
  exact ⟨h.2.1, h.2.2.1, h.2.2.2⟩

/-- C8: for `W` with `AW = A * W`, `A` self-adjoint w.r.t. the inner product
(so `E = ip(W, AW)` equals `ip(AW, W)`, i.e. `E` is Hermitian), `E`
invertible, and the inner product linear in its second argument (differences
and right matrix factors), the projection `P` returned by `get_projection`
satisfies `ip(AW, P x) = 0` for every vector `x`, and the adapted initial
guess is `x0new = P x0 + W * E⁻¹ * ip(W, b)`. -/
theorem get_projection_spec {N k : ℕ}
    (W AW : Matrix (Fin N) (Fin k) ℂ) (b x0 : Matrix (Fin N) (Fin 1) ℂ)
    (ip : (m n : ℕ) → Matrix (Fin N) (Fin m) ℂ → Matrix (Fin N) (Fin n) ℂ →
      Matrix (Fin m) (Fin n) ℂ)
    (hE : ip k k AW W = ip k k W AW)
    (hdet : IsUnit (ip k k W AW).det)
    (hsub : ∀ x y : Matrix (Fin N) (Fin 1) ℂ,
      ip k 1 AW (x - y) = ip k 1 AW x - ip k 1 AW y)
    (hmul : ∀ C : Matrix (Fin k) (Fin 1) ℂ,
      ip k 1 AW (W * C) = ip k k AW W * C) :
    (∀ x, ip k 1 AW ((get_projection W AW b x0 ip).1 x) = 0) ∧
    (get_projection W AW b x0 ip).2 =
      (get_projection W AW b x0 ip).1 x0 + W * ((ip k k W AW)⁻¹ * ip k 1 W b) := by
  constructor
  · intro x
    show ip k 1 AW (x - W * ((ip k k W AW)⁻¹ * ip k 1 AW x)) = 0
    rw [hsub, hmul, hE, ← Matrix.mul_assoc, Matrix.mul_nonsing_inv _ hdet,
      Matrix.one_mul, sub_self]
  · rfl

theorem get_projection_spec_witness :
    _ipstd 1 1 (1 : Matrix (Fin 1) (Fin 1) ℂ)
      ((get_projection (1 : Matrix (Fin 1) (Fin 1) ℂ) 1 0 0 (@_ipstd 1)).1 0) = 0 := by
  have h := get_projection_spec (1 : Matrix (Fin 1) (Fin 1) ℂ) 1 0 0 (@_ipstd 1)
    rfl
    (by simp [_ipstd])
    (fun x y => by simp [_ipstd, Matrix.mul_sub])
    (fun C => by simp [_ipstd, Matrix.mul_assoc])
  exact h.1 0

theorem minresStep_eq (tol : ℚ) (maxiter : ℕ) (er : Bool) (upd expl : ℕ → ℚ)
    (s : KSState) :
    minresStep tol maxiter er upd expl s =
      if (if er then expl s.k else upd s.k) ≤ tol ∨ s.k + 1 = maxiter then
        { relresvec := s.relresvec ++ [max machineEps (expl s.k)]
          info := if expl s.k > tol ∧ s.k + 1 = maxiter then 1 else s.info
          k := s.k + 1 }
      else
        { relresvec := s.relresvec ++
            [max machineEps (if er then expl s.k else upd s.k)]
          info := s.info
          k := s.k + 1 } := by
  unfold minresStep
  cases er <;> dsimp only <;> split_ifs <;> rfl

theorem gmresStep_eq (tol : ℚ) (maxiter : ℕ) (er : Bool) (upd expl : ℕ → ℚ)
    (s : KSState) :
    gmresStep tol maxiter er upd expl s =
      if (if er then expl s.k else upd s.k) < tol ∨ s.k + 1 = maxiter then
        { relresvec := s.relresvec ++ [expl s.k]
          info := if expl s.k ≥ tol ∧ s.k + 1 = maxiter then 1 else s.info
          k := s.k + 1 }
      else
        { relresvec := s.relresvec ++ [if er then expl s.k else upd s.k]
          info := s.info
          k := s.k + 1 } := by
  unfold gmresStep
  cases er <;> dsimp only <;> split_ifs <;> rfl

theorem minresStep_spec (tol : ℚ) (maxiter : ℕ) (er : Bool) (upd expl : ℕ → ℚ)
    (heps : machineEps ≤ tol) (s : KSState) (hk : s.k < maxiter) :
    (minresStep tol maxiter er upd expl s).info = 0 →
      ¬(lastRes (minresStep tol maxiter er upd expl s) > tol ∧
        (minresStep tol maxiter er upd expl s).k < maxiter) →
      lastRes (minresStep tol maxiter er upd expl s)
          = max machineEps (expl ((minresStep tol maxiter er upd expl s).k - 1)) ∧
        lastRes (minresStep tol maxiter er upd expl s) ≤ tol := by
  rw [minresStep_eq]
  by_cases htr : (if er then expl s.k else upd s.k) ≤ tol ∨ s.k + 1 = maxiter
  · rw [if_pos htr]
    intro hinfo hexit
    simp only [lastRes, List.getLastD_concat] at *
    refine ⟨by norm_num, ?_⟩
    by_cases hle : max machineEps (expl s.k) ≤ tol
    · exact hle
    · exfalso
      push_neg at hle
      have h1 : ¬(s.k + 1 < maxiter) := fun hlt => hexit ⟨hle, hlt⟩
      have h2 : s.k + 1 = maxiter := by omega
      have h3 : expl s.k > tol := by
        rcases max_cases machineEps (expl s.k) with ⟨hm, _⟩ | ⟨hm, _⟩
        · rw [hm] at hle
          linarith
        · rw [hm] at hle
          exact hle
      rw [if_pos ⟨h3, h2⟩] at hinfo
      exact one_ne_zero hinfo
  · rw [if_neg htr]
    intro _ hexit
    exfalso
    push_neg at htr
    simp only [lastRes, List.getLastD_concat] at hexit
    have hgt : max machineEps (if er then expl s.k else upd s.k) > tol :=
      lt_of_lt_of_le htr.1 (le_max_right _ _)
    have h1 : ¬(s.k + 1 < maxiter) := fun hlt => hexit ⟨hgt, hlt⟩
    exact htr.2 (by omega)

theorem gmresStep_spec (tol : ℚ) (maxiter : ℕ) (er : Bool) (upd expl : ℕ → ℚ)
    (hne : ∀ j, upd j ≠ tol) (s : KSState) (hk : s.k < maxiter) :
    (gmresStep tol maxiter er upd expl s).info = 0 →
      ¬(lastRes (gmresStep tol maxiter er upd expl s) > tol ∧
        (gmresStep tol maxiter er upd expl s).k < maxiter) →
      lastRes (gmresStep tol maxiter er upd expl s)
          = expl ((gmresStep tol maxiter er upd expl s).k - 1) ∧
        lastRes (gmresStep tol maxiter er upd expl s) ≤ tol := by
  rw [gmresStep_eq]
  by_cases htr : (if er then expl s.k else upd s.k) < tol ∨ s.k + 1 = maxiter
  · rw [if_pos htr]
    intro hinfo hexit
    simp only [lastRes, List.getLastD_concat] at *
    refine ⟨by norm_num, ?_⟩
    by_cases hle : expl s.k ≤ tol
    · exact hle
    · exfalso
      push_neg at hle
      have h1 : ¬(s.k + 1 < maxiter) := fun hlt => hexit ⟨hle, hlt⟩
      have h2 : s.k + 1 = maxiter := by omega
      rw [if_pos ⟨le_of_lt hle, h2⟩] at hinfo
      exact one_ne_zero hinfo
  · rw [if_neg htr]
    intro _ hexit
    push_neg at htr
    simp only [lastRes, List.getLastD_concat] at *
    have h2 : s.k + 1 < maxiter := by
      omega
    have hle : (if er then expl s.k else upd s.k) ≤ tol := by
      by_contra hgt
      push_neg at hgt
      exact hexit ⟨hgt, h2⟩
    cases er with
    | false =>
      exfalso
      simp only [Bool.false_eq_true, if_false] at htr hle
      exact hne s.k (le_antisymm hle htr.1)
    | true =>
      simp only [if_true] at hle ⊢
      exact ⟨by norm_num, hle⟩

theorem minresLoopGo_exit (tol : ℚ) (maxiter : ℕ) (er : Bool) (upd expl : ℕ → ℚ) :
    ∀ fuel (s : KSState), maxiter ≤ fuel + s.k →
      ¬(lastRes (minresLoopGo tol maxiter er upd expl fuel s) > tol ∧
        (minresLoopGo tol maxiter er upd expl fuel s).k < maxiter) := by
  intro fuel
  induction fuel with
  | zero =>
    intro s h hc
    exact absurd hc.2 (by simp [minresLoopGo]; omega)
  | succ n ih =>
    intro s h
    rw [minresLoopGo]
    split_ifs with hc
    · exact ih _ (by rw [minresStep_eq]; split_ifs <;> simp <;> omega)
    · exact hc

theorem minresLoopGo_pres (tol : ℚ) (maxiter : ℕ) (er : Bool) (upd expl : ℕ → ℚ)
    (heps : machineEps ≤ tol) :
    ∀ fuel (s : KSState),
      (s.info = 0 → 1 ≤ s.k → ¬(lastRes s > tol ∧ s.k < maxiter) →
        lastRes s = max machineEps (expl (s.k - 1)) ∧ lastRes s ≤ tol) →
      ((minresLoopGo tol maxiter er upd expl fuel s).info = 0 →
        1 ≤ (minresLoopGo tol maxiter er upd expl fuel s).k →
        ¬(lastRes (minresLoopGo tol maxiter er upd expl fuel s) > tol ∧
          (minresLoopGo tol maxiter er upd expl fuel s).k < maxiter) →
        lastRes (minresLoopGo tol maxiter er upd expl fuel s)
            = max machineEps (expl ((minresLoopGo tol maxiter er upd expl fuel s).k - 1)) ∧
          lastRes (minresLoopGo tol maxiter er upd expl fuel s) ≤ tol) := by
  intro fuel
  induction fuel with
  | zero =>
    intro s hs
    simpa [minresLoopGo] using hs
  | succ n ih =>
    intro s hs
    rw [minresLoopGo]
    split_ifs with hc
    · refine ih _ ?_
      intro hinfo _ hexit
      exact minresStep_spec tol maxiter er upd expl heps s hc.2 hinfo hexit
    · exact hs

theorem gmresLoopGo_exit (tol : ℚ) (maxiter : ℕ) (er : Bool) (upd expl : ℕ → ℚ) :
    ∀ fuel (s : KSState), maxiter ≤ fuel + s.k →
      ¬(lastRes (gmresLoopGo tol maxiter er upd expl fuel s) > tol ∧
        (gmresLoopGo tol maxiter er upd expl fuel s).k < maxiter) := by
  intro fuel
  induction fuel with
  | zero =>
    intro s h hc
    exact absurd hc.2 (by simp [gmresLoopGo]; omega)
  | succ n ih =>
    intro s h
    rw [gmresLoopGo]
    split_ifs with hc
    · exact ih _ (by rw [gmresStep_eq]; split_ifs <;> simp <;> omega)
    · exact hc

theorem gmresLoopGo_pres (tol : ℚ) (maxiter : ℕ) (er : Bool) (upd expl : ℕ → ℚ)
    (hne : ∀ j, upd j ≠ tol) :
    ∀ fuel (s : KSState),
      (s.info = 0 → 1 ≤ s.k → ¬(lastRes s > tol ∧ s.k < maxiter) →
        lastRes s = expl (s.k - 1) ∧ lastRes s ≤ tol) →
      ((gmresLoopGo tol maxiter er upd expl fuel s).info = 0 →
        1 ≤ (gmresLoopGo tol maxiter er upd expl fuel s).k →
        ¬(lastRes (gmresLoopGo tol maxiter er upd expl fuel s) > tol ∧
          (gmresLoopGo tol maxiter er upd expl fuel s).k < maxiter) →
        lastRes (gmresLoopGo tol maxiter er upd expl fuel s)
            = expl ((gmresLoopGo tol maxiter er upd expl fuel s).k - 1) ∧
          lastRes (gmresLoopGo tol maxiter er upd expl fuel s) ≤ tol) := by
  intro fuel
  induction fuel with
  | zero =>
    intro s hs
    simpa [gmresLoopGo] using hs
  | succ n ih =>
    intro s hs
    rw [gmresLoopGo]
    split_ifs with hc
    · refine ih _ ?_
      intro hinfo _ hexit
      exact gmresStep_spec tol maxiter er upd expl hne s hc.2 hinfo hexit
    · exact hs

/-- C9 (amended): whenever the residual-tracking loop returns `info = 0`
after at least one iteration, the final entry of the residual history is the
explicitly recomputed residual norm and it is within the solver tolerance —
for `minres` (whose final entry carries the machine-epsilon floor of source
line 468, whence the hypothesis `machineEps ≤ tol`) for all runs, and for
`gmres` under the additional hypothesis that no implicit estimate ever equals
`tol` exactly: gmres's recomputation trigger is the strict `< tol` (source
line 819) while its loop exits on `≤ tol`, so a run whose implicit estimate
lands exactly on `tol` exits converged without the explicit recomputation
(see the counterexample). -/
theorem final_residual_explicit_policy :
    (∀ (tol : ℚ) (maxiter : ℕ) (er : Bool) (upd expl : ℕ → ℚ) (r0 : ℚ),
      machineEps ≤ tol →
      (minresRun tol maxiter er upd expl r0).info = 0 →
      1 ≤ (minresRun tol maxiter er upd expl r0).k →
      lastRes (minresRun tol maxiter er upd expl r0)
          = max machineEps (expl ((minresRun tol maxiter er upd expl r0).k - 1)) ∧
        lastRes (minresRun tol maxiter er upd expl r0) ≤ tol) ∧
    (∀ (tol : ℚ) (maxiter : ℕ) (er : Bool) (upd expl : ℕ → ℚ) (r0 : ℚ),
      (∀ j, upd j ≠ tol) →
      (gmresRun tol maxiter er upd expl r0).info = 0 →
      1 ≤ (gmresRun tol maxiter er upd expl r0).k →
      lastRes (gmresRun tol maxiter er upd expl r0)
          = expl ((gmresRun tol maxiter er upd expl r0).k - 1) ∧
        lastRes (gmresRun tol maxiter er upd expl r0) ≤ tol) := by
  constructor
  · intro tol maxiter er upd expl r0 heps hinfo hk
    have hexit := minresLoopGo_exit tol maxiter er upd expl maxiter
      { relresvec := [r0], info := 0, k := 0 } (by omega)
    have hpres := minresLoopGo_pres tol maxiter er upd expl heps maxiter
      { relresvec := [r0], info := 0, k := 0 } (by intro _ h1; simp at h1)
    exact hpres hinfo hk hexit
  · intro tol maxiter er upd expl r0 hne hinfo hk
    have hexit := gmresLoopGo_exit tol maxiter er upd expl maxiter
      { relresvec := [r0], info := 0, k := 0 } (by omega)
    have hpres := gmresLoopGo_pres tol maxiter er upd expl hne maxiter
      { relresvec := [r0], info := 0, k := 0 } (by intro _ h1; simp at h1)
    exact hpres hinfo hk hexit

theorem final_residual_explicit_policy_witness :
    machineEps ≤ (1/2 : ℚ) ∧
      (minresRun (1/2) 3 false (fun _ => 1/4) (fun _ => 1/4) 1).info = 0 ∧
      1 ≤ (minresRun (1/2) 3 false (fun _ => 1/4) (fun _ => 1/4) 1).k ∧
      lastRes (minresRun (1/2) 3 false (fun _ => 1/4) (fun _ => 1/4) 1)
          = max machineEps ((fun _ => (1/4 : ℚ))
              ((minresRun (1/2) 3 false (fun _ => 1/4) (fun _ => 1/4) 1).k - 1)) ∧
        lastRes (minresRun (1/2) 3 false (fun _ => 1/4) (fun _ => 1/4) 1) ≤ 1/2 := by
  have h1 : machineEps ≤ (1/2 : ℚ) := by norm_num [machineEps]
  have h2 : (minresRun (1/2) 3 false (fun _ => 1/4) (fun _ => 1/4) 1).info = 0 := by
    norm_num [minresRun, minresLoopGo, minresStep, lastRes, machineEps]
  have h3 : 1 ≤ (minresRun (1/2) 3 false (fun _ => 1/4) (fun _ => 1/4) 1).k := by
    norm_num [minresRun, minresLoopGo, minresStep, lastRes, machineEps]
  exact ⟨h1, h2, h3,
    final_residual_explicit_policy.1 (1/2) 3 false (fun _ => 1/4) (fun _ => 1/4) 1 h1 h2 h3⟩

/-- C9 counterexample: a gmres run (`explicit_residual = False`) whose
implicit estimate in the first iteration equals `tol = 1/2` exactly: the
strict `< tol` trigger does not fire, the loop exits with `info = 0` after
one iteration, and the final history entry `1/2` is the implicit estimate,
not the explicitly recomputed residual norm of the final iterate (which the
explicit-residual oracle puts at `3/4 > tol`). -/
theorem gmres_exact_tol_skips_explicit_residual :
    (gmresRun (1/2) 5 false (fun _ => 1/2) (fun _ => 3/4) 1).info = 0 ∧
      (gmresRun (1/2) 5 false (fun _ => 1/2) (fun _ => 3/4) 1).k = 1 ∧
      (gmresRun (1/2) 5 false (fun _ => 1/2) (fun _ => 3/4) 1).relresvec = [1, 1/2] ∧
      lastRes (gmresRun (1/2) 5 false (fun _ => 1/2) (fun _ => 3/4) 1)
        ≠ (fun _ => (3/4 : ℚ)) 0 ∧
      ¬((3/4 : ℚ) ≤ 1/2) := by
  refine ⟨?_, ?_, ?_, ?_, by norm_num⟩ <;>
    norm_num [gmresRun, gmresLoopGo, gmresStep, lastRes]

theorem newtonStep_ok_shape {α : Type} [Add α] (p : NewtonParams)
    (o : NewtonOracle α) (s s1 : NewtonState α)
    (h : newtonStep p o s = Except.ok s1) :
    s1.Fx_norms.length = s.Fx_norms.length + 1 ∧ s1.k = s.k + 1 := by
  unfold newtonStep at h
  cases he : newtonEta p s.eta_previous (s.Fx_norms.getLastD 0)
      (s.Fx_norms.dropLast.getLastD 0) s.prev_relres_last with
  | error e =>
    rw [he] at h
    simp [Except.map] at h
  | ok eta =>
    rw [he] at h
    simp only [Except.map, Except.ok.injEq] at h
    subst h
    simp

theorem newtonLoopGo_len {α : Type} [Add α] (p : NewtonParams)
    (o : NewtonOracle α) :
    ∀ (fuel : ℕ) (s s1 : NewtonState α), s.Fx_norms.length = s.k + 1 →
      newtonLoopGo p o fuel s = Except.ok s1 →
      s1.Fx_norms.length = s1.k + 1 := by
  intro fuel
  induction fuel with
  | zero =>
    intro s s1 hlen h
    simp only [newtonLoopGo, Except.ok.injEq] at h
    subst h
    exact hlen
  | succ n ih =>
    intro s s1 hlen h
    rw [newtonLoopGo] at h
    split_ifs at h with hc
    · cases hstep : newtonStep p o s with
      | error e =>
        rw [hstep] at h
        simp [Except.bind] at h
      | ok smid =>
        rw [hstep] at h
        simp only [Except.bind] at h
        have hsh := newtonStep_ok_shape p o s smid hstep
        exact ih smid s1 (by omega) h
    · simp only [Except.ok.injEq] at h
      subst h
      exact hlen

theorem newtonStep_first {α : Type} [Add α] (p : NewtonParams)
    (o : NewtonOracle α) (s : NewtonState α) (h : s.eta_previous = none) :
    ∃ s1, newtonStep p o s = Except.ok s1 ∧
      s1.x = s.x + (o.solver s.k s.x p.eta0
        (if 0 < p.num_deflation_vectors then py2min s.lsm (memCap p.N) else s.lsm)
        (if 0 < p.num_deflation_vectors then true else false)).xk ∧
      s1.k = s.k + 1 ∧
      s1.Fx_norms = s.Fx_norms ++ [o.normF s1.x] ∧
      s1.eta_previous = some p.eta0 := by
  unfold newtonStep newtonEta
  rw [h]
  exact ⟨_, rfl, rfl, rfl, rfl, rfl⟩

theorem newtonStep_unknown_forcing {α : Type} [Add α] (p : NewtonParams)
    (o : NewtonOracle α) (s : NewtonState α) (e : ℚ)
    (h : s.eta_previous = some e)
    (hft1 : p.forcing_term ≠ "constant") (hft2 : p.forcing_term ≠ "type 1")
    (hft3 : p.forcing_term ≠ "type 2") :
    newtonStep p o s = Except.error "Unknown forcing term" := by
  unfold newtonStep newtonEta
  rw [h]
  simp [hft1, hft2, hft3, Except.map]

theorem newtonLoopGo_kle {α : Type} [Add α] (p : NewtonParams)
    (o : NewtonOracle α) :
    ∀ (fuel : ℕ) (s s1 : NewtonState α), s.k ≤ p.newton_maxiter →
      newtonLoopGo p o fuel s = Except.ok s1 → s1.k ≤ p.newton_maxiter := by
  intro fuel
  induction fuel with
  | zero =>
    intro s s1 hk h
    simp only [newtonLoopGo, Except.ok.injEq] at h
    subst h
    exact hk
  | succ n ih =>
    intro s s1 hk h
    rw [newtonLoopGo] at h
    split_ifs at h with hc
    · cases hstep : newtonStep p o s with
      | error e =>
        rw [hstep] at h
        simp [Except.bind] at h
      | ok smid =>
        rw [hstep] at h
        simp only [Except.bind] at h
        have hsh := newtonStep_ok_shape p o s smid hstep
        exact ih smid s1 (by omega) h
    · simp only [Except.ok.injEq] at h
      subst h
      exact hk

theorem newtonLoopGo_exit {α : Type} [Add α] (p : NewtonParams)
    (o : NewtonOracle α) :
    ∀ (fuel : ℕ) (s s1 : NewtonState α), p.newton_maxiter ≤ fuel + s.k →
      newtonLoopGo p o fuel s = Except.ok s1 →
      ¬(s1.Fx_norms.getLastD 0 > p.nonlinear_tol ∧ s1.k < p.newton_maxiter) := by
  intro fuel
  induction fuel with
  | zero =>
    intro s s1 hf h
    simp only [newtonLoopGo, Except.ok.injEq] at h
    subst h
    intro hc
    exact absurd hc.2 (by omega)
  | succ n ih =>
    intro s s1 hf h
    rw [newtonLoopGo] at h
    split_ifs at h with hc
    · cases hstep : newtonStep p o s with
      | error e =>
        rw [hstep] at h
        simp [Except.bind] at h
      | ok smid =>
        rw [hstep] at h
        simp only [Except.bind] at h
        have hsh := newtonStep_ok_shape p o s smid hstep
        exact ih smid s1 (by omega) h
    · simp only [Except.ok.injEq] at h
      subst h
      exact hc

/-- C2 (amended): for every run of `newton` that returns, the error code is
nonzero exactly when the loop performed the full `newton_maxiter` iterations
(the residual-norm history then has `newton_maxiter + 1` entries), and
`error_code = 0` still implies the final residual norm is at most
`nonlinear_tol`; but convergence reached exactly on the last allowed
iteration is also reported as `error_code = 1` (see the counterexample). -/
theorem newton_error_code_iff_budget {α : Type} [Add α] (p : NewtonParams)
    (o : NewtonOracle α) (x0 : α)
    (res : α × ℤ × List ℚ × List (List ℚ) × List (Option ℕ))
    (h : newton p o x0 = Except.ok res) :
    (res.2.1 = 1 ↔ res.2.2.1.length = p.newton_maxiter + 1) ∧
      (res.2.1 = 0 → res.2.2.1.getLastD 0 ≤ p.nonlinear_tol) := by
  unfold newton at h
  cases hloop : newtonLoopGo p o p.newton_maxiter
      { x := x0
        k := 0
        Fx_norms := [o.normF x0]
        eta_previous := none
        lsm := p.linear_solver_maxiter
        prev_relres_last := 0
        linear_relresvecs := []
        maxiter_trace := [] } with
  | error e =>
    rw [hloop] at h
    simp [Except.map] at h
  | ok sf =>
    rw [hloop] at h
    simp only [Except.map, Except.ok.injEq] at h
    subst h
    dsimp only
    have hlen := newtonLoopGo_len p o p.newton_maxiter _ sf (by simp) hloop
    have hkle := newtonLoopGo_kle p o p.newton_maxiter _ sf (Nat.zero_le _) hloop
    have hexit := newtonLoopGo_exit p o p.newton_maxiter _ sf
      (Nat.le_add_right _ _) hloop
    constructor
    · by_cases hkk : sf.k = p.newton_maxiter
      · simp only [if_pos hkk]
        constructor
        · intro _
          omega
        · intro _
          trivial
      · simp only [if_neg hkk]
        constructor
        · intro h01
          exact absurd h01 (by norm_num)
        · intro hl
          omega
    · intro h0
      by_cases hkk : sf.k = p.newton_maxiter
      · rw [if_pos hkk] at h0
        exact absurd h0 (by norm_num)
      · have hklt : sf.k < p.newton_maxiter := lt_of_le_of_ne hkle hkk
        by_contra hgt
        push_neg at hgt
        exact hexit ⟨hgt, hklt⟩

theorem newton_error_code_iff_budget_witness :
    newton paramsC2b oracleConv1 0 = Except.ok (1, 0, [1, 0], [[1]], [none]) ∧
      (((0 : ℤ) = 1 ↔ ([1, 0] : List ℚ).length = paramsC2b.newton_maxiter + 1) ∧
        ((0 : ℤ) = 0 → ([1, 0] : List ℚ).getLastD 0 ≤ paramsC2b.nonlinear_tol)) := by
  have hrun : newton paramsC2b oracleConv1 0
      = Except.ok (1, 0, [1, 0], [[1]], [none]) := by
    norm_num [newton, newtonLoopGo, newtonStep, newtonEta, paramsC2b, paramsC2,
      oracleConv1, Except.map, Except.bind]
  exact ⟨hrun, newton_error_code_iff_budget paramsC2b oracleConv1 0 _ hrun⟩

/-- C2 counterexample: a Newton run that reaches
`||F(x)|| <= nonlinear_tol` exactly on the last allowed (here the single)
outer iteration still returns `error_code = 1`: the source flags the error
from `k == newton_maxiter` alone (line 1111) without checking whether the
final residual converged. -/
theorem newton_converged_on_last_step_error_one :
    newton paramsC2 oracleConv1 0 = Except.ok (1, 1, [1, 0], [[1]], [none]) ∧
      ([1, 0] : List ℚ).getLastD 0 ≤ paramsC2.nonlinear_tol := by
  constructor
  · norm_num [newton, newtonLoopGo, newtonStep, newtonEta, paramsC2, oracleConv1,
      Except.map, Except.bind]
  · norm_num [paramsC2]

/-- C3 (amended): an unknown forcing-term name raises `ValueError` on the
*second* Newton iteration, not the first: the first iteration takes the
`eta_previous is None` branch and runs with `eta = eta0`, so every call that
enters a second iteration (first two residual norms above the tolerance,
budget at least 2) fails there, and a call that performs at most one
iteration returns normally (see the counterexample). -/
theorem newton_unknown_forcing_raises_on_second_iteration {α : Type} [Add α]
    (p : NewtonParams) (o : NewtonOracle α) (x0 : α)
    (hft1 : p.forcing_term ≠ "constant") (hft2 : p.forcing_term ≠ "type 1")
    (hft3 : p.forcing_term ≠ "type 2")
    (h0 : o.normF x0 > p.nonlinear_tol)
    (h1 : o.normF (newtonFirstIterate p o x0) > p.nonlinear_tol)
    (h2 : 2 ≤ p.newton_maxiter) :
    newton p o x0 = Except.error "Unknown forcing term" := by
  obtain ⟨m, hm⟩ : ∃ m, p.newton_maxiter = m + 2 :=
    ⟨p.newton_maxiter - 2, by omega⟩
  unfold newton
  rw [hm]
  rw [newtonLoopGo]
  rw [if_pos (by exact ⟨by simpa using h0, by show 0 < p.newton_maxiter; omega⟩)]
  obtain ⟨s1, hstep, hx1, hk1, hF1, heta1⟩ := newtonStep_first p o
    { x := x0
      k := 0
      Fx_norms := [o.normF x0]
      eta_previous := none
      lsm := p.linear_solver_maxiter
      prev_relres_last := 0
      linear_relresvecs := []
      maxiter_trace := [] } rfl
  rw [hstep]
  simp only [Except.bind]
  rw [newtonLoopGo]
  have hx1e : s1.x = newtonFirstIterate p o x0 := by
    rw [hx1, newtonFirstIterate]
  rw [if_pos (by
    constructor
    · rw [hF1, List.getLastD_concat, hx1e]
      exact h1
    · rw [hk1]
      show 0 + 1 < p.newton_maxiter
      omega)]
  rw [newtonStep_unknown_forcing p o s1 p.eta0 heta1 hft1 hft2 hft3]
  rfl

theorem newton_unknown_forcing_witness :
    newton paramsC3b oracleStuck 0 = Except.error "Unknown forcing term" := by
  have h := newton_unknown_forcing_raises_on_second_iteration paramsC3b oracleStuck 0
    (by decide) (by decide) (by decide)
    (by norm_num [paramsC3b, paramsC2, oracleStuck])
    (by norm_num [paramsC3b, paramsC2, oracleStuck, newtonFirstIterate])
    (by norm_num [paramsC3b, paramsC2])
  exact h

/-- C3 counterexample: a `newton` call with the unknown forcing-term name
`"bogus"` that performs exactly one iteration (the first residual norm is
above the tolerance, the next one below) returns normally with
`error_code = 0` — no `ValueError` is raised on the first iteration, because
`eta_previous is None` routes the first iteration to `eta = eta0` before the
forcing-term name is ever inspected. -/
theorem newton_unknown_forcing_first_iteration_no_error :
    newton paramsC3 oracleConv1 0 = Except.ok (1, 0, [1, 0], [[1]], [none]) := by
  norm_num [newton, newtonLoopGo, newtonStep, newtonEta, paramsC3, paramsC2,
    oracleConv1, Except.map, Except.bind]

/-- C4: the 0.5 GiB cap on the solver's `maxiter` is a no-op for the default
`linear_solver_maxiter = None`: Python 2's `min(None, cap)` is `None` (the
ghost trace of the run shows `None` was passed to the solver), the solver
then defaults `maxiter` to `N = len(x)`, and for `N = 4097` the two retained
basis arrays need `2 * 16 * maxiter * N > 2^29` bytes — contradicting the
comment above source line 1045 (`limit to 0.5 GB memory for Vfull/Pfull`). -/
theorem maxiter_cap_noop_for_default_none :
    py2min none (memCap 4097) = none ∧
      newton paramsC4 oracleConv1 0 = Except.ok (1, 0, [1, 0], [[1]], [none]) ∧
      minresEffectiveMaxiter none 4097 = 4097 ∧
      ¬(2 * 16 * minresEffectiveMaxiter none 4097 * 4097 ≤ 2 ^ 29) := by
  refine ⟨rfl, ?_, rfl, by norm_num [minresEffectiveMaxiter]⟩
  norm_num [newton, newtonLoopGo, newtonStep, newtonEta, paramsC4, paramsC2,
    oracleConv1, py2min, Except.map, Except.bind]

/-- C1: the triple returned by `get_ritz` is NOT sorted ascending by residual
norm: source line 672 sorts by eigenvalue magnitude
(`sorti = np.argsort(abs(lam))`) although the docstring (lines 583-584) and
the comment on line 671 promise residual-ascending order.  The input: the
deflation basis is empty (`nW = 0`, the first Newton iteration's call shape),
`HfullEx` comes from two MINRES/Lanczos iterations (with `Vfull = I`), and
`(lamEx, UEx)` is the `eigh` output for `ritzmat0 HfullEx` — the first three
conjuncts state the eigendecomposition contract `eigh` guarantees (eigenpairs
of `ritzmat`, orthonormal `U`, eigenvalues ascending).  The computed residual
norms are `sqrt(16/25) = 4/5` and `sqrt(9/25) = 3/5`; the sort permutation is
the identity (ascending `|lam|`), so the returned residual list
`[4/5, 3/5]` is not ascending. -/
theorem get_ritz_residuals_not_ascending :
    ritzmat0 HfullEx * UEx = UEx * Matrix.diagonal lamEx ∧
      UEx.transpose * UEx = 1 ∧
      lamEx 0 ≤ lamEx 1 ∧
      argsortAbs lamEx = [0, 1] ∧
      ritzResIp HfullEx lamEx UEx 0 = 16/25 ∧
      ritzResIp HfullEx lamEx UEx 1 = 9/25 ∧
      ¬List.Sorted (· ≤ ·) (get_ritz0 VfullEx HfullEx lamEx UEx).2.2 := by
  have hsort : argsortAbs lamEx = [0, 1] := by
    norm_num [argsortAbs, List.insertionSort, List.orderedInsert, List.finRange,
      List.ofFn, lamEx]
  have hz0 : ritzZ HfullEx lamEx UEx 0 = ![0, 0, -(4/5)] := by
    funext r
    fin_cases r <;>
      norm_num [ritzZ, HfullEx, lamEx, UEx, Matrix.mulVec, Matrix.dotProduct,
        Fin.sum_univ_two, Matrix.cons_val_zero, Matrix.cons_val_one,
        Matrix.head_cons, Matrix.vecHead, Matrix.vecTail]
  have hz1 : ritzZ HfullEx lamEx UEx 1 = ![0, 0, 3/5] := by
    funext r
    fin_cases r <;>
      norm_num [ritzZ, HfullEx, lamEx, UEx, Matrix.mulVec, Matrix.dotProduct,
        Fin.sum_univ_two, Matrix.cons_val_zero, Matrix.cons_val_one,
        Matrix.head_cons, Matrix.vecHead, Matrix.vecTail]
  have hr0 : ritzResIp HfullEx lamEx UEx 0 = 16/25 := by
    rw [ritzResIp, hz0]
    norm_num [Fin.sum_univ_succ, Matrix.cons_val_zero, Matrix.cons_val_succ]
  have hr1 : ritzResIp HfullEx lamEx UEx 1 = 9/25 := by
    rw [ritzResIp, hz1]
    norm_num [Fin.sum_univ_succ, Matrix.cons_val_zero, Matrix.cons_val_succ]
  refine ⟨?_, ?_, ?_, hsort, hr0, hr1, ?_⟩
  · ext i j
    fin_cases i <;> fin_cases j <;>
      norm_num [ritzmat0, HfullEx, UEx, lamEx, Matrix.mul_apply,
        Matrix.diagonal, Fin.sum_univ_two]
  · ext i j
    fin_cases i <;> fin_cases j <;>
      norm_num [UEx, Matrix.mul_apply, Matrix.transpose_apply, Matrix.one_apply,
        Fin.sum_univ_two, Matrix.cons_val_zero, Matrix.cons_val_one,
        Matrix.head_cons, Matrix.vecHead, Matrix.vecTail, Matrix.cons_val_fin_one,
        Matrix.transpose]
  · norm_num [lamEx]
  · intro hsorted
    have hlist : (get_ritz0 VfullEx HfullEx lamEx UEx).2.2
        = [norm_ritz_res0 HfullEx lamEx UEx 0, norm_ritz_res0 HfullEx lamEx UEx 1] := by
      show (argsortAbs lamEx).map (norm_ritz_res0 HfullEx lamEx UEx) = _
      rw [hsort]
      rfl
    rw [hlist] at hsorted
    have hle := (List.sorted_cons.mp hsorted).1 _ (List.mem_cons_self _ _)
    have hlt : norm_ritz_res0 HfullEx lamEx UEx 1 < norm_ritz_res0 HfullEx lamEx UEx 0 := by
      unfold norm_ritz_res0
      rw [hr0, hr1]
      have h925 : ((|(9:ℚ)/25| : ℚ) : ℝ) = 9/25 := by norm_num
      have h1625 : ((|(16:ℚ)/25| : ℚ) : ℝ) = 16/25 := by norm_num
      rw [h925, h1625]
      exact Real.sqrt_lt_sqrt (by norm_num) (by norm_num)
    exact absurd hle (not_le.mpr hlt)

theorem mgsPass_len {V : Type} [NormedAddCommGroup V] [InnerProductSpace ℂ V]
    (L : List V) : ∀ v : V, (mgsPass v L).2.length = L.length := by
  induction L with
  | nil => intro v; rfl
  | cons q Q ih => intro v; simp [mgsPass, ih]

theorem mgsPass_inner_eq {V : Type} [NormedAddCommGroup V] [InnerProductSpace ℂ V]
    (q : V) (L : List V) (hq : ∀ u ∈ L, (inner q u : ℂ) = 0) :
    ∀ v : V, (inner q (mgsPass v L).1 : ℂ) = inner q v := by
  induction L with
  | nil => intro v; rfl
  | cons w Q ih =>
    intro v
    simp only [mgsPass]
    rw [ih (fun u hu => hq u (List.mem_cons_of_mem w hu))]
    rw [inner_sub_right, inner_smul_right, hq w (List.mem_cons_self w Q),
      mul_zero, sub_zero]

theorem mgsPass_orth {V : Type} [NormedAddCommGroup V] [InnerProductSpace ℂ V] :
    ∀ L : List V, ONList L → ∀ v : V, ∀ u ∈ L, (inner u (mgsPass v L).1 : ℂ) = 0 := by
  intro L
  induction L with
  | nil =>
    intro _ v u hu
    cases hu
  | cons q Q ih =>
    intro hON v u hu
    obtain ⟨hpair, hunit⟩ := hON
    rw [List.pairwise_cons] at hpair
    simp only [mgsPass]
    rcases List.mem_cons.mp hu with rfl | huQ
    · rw [mgsPass_inner_eq u Q (fun y hy => (hpair.1 y hy).1)]
      rw [inner_sub_right, inner_smul_right]
      rw [hunit u (List.mem_cons_self u Q)]
      ring
    · exact ih ⟨hpair.2, fun y hy => hunit y (List.mem_cons_of_mem q hy)⟩
        (v - (inner q v : ℂ) • q) u huQ

theorem mgsPass_recon {V : Type} [NormedAddCommGroup V] [InnerProductSpace ℂ V]
    (L : List V) : ∀ v : V, (mgsPass v L).1
      = v - (List.zipWith (fun (c : ℂ) (q : V) => c • q) (mgsPass v L).2 L).sum := by
  induction L with
  | nil => intro v; simp [mgsPass]
  | cons q Q ih =>
    intro v
    simp only [mgsPass, List.zipWith_cons_cons, List.sum_cons]
    rw [ih]
    abel

theorem qr_norm_value {V : Type} [NormedAddCommGroup V] [InnerProductSpace ℂ V]
    (w : V) : Real.sqrt (Complex.abs (inner w w : ℂ)) = ‖w‖ := by
  rw [@inner_self_eq_norm_sq_to_K ℂ V _ _ _ w]
  norm_num [Complex.sq_abs, Complex.normSq_ofReal]

theorem zipWith_smul_trunc {V : Type} [NormedAddCommGroup V] [InnerProductSpace ℂ V]
    (cs : List ℂ) (L1 L2 : List V) (h : cs.length = L1.length) :
    List.zipWith (fun (c : ℂ) (q : V) => c • q) cs (L1 ++ L2)
      = List.zipWith (fun (c : ℂ) (q : V) => c • q) cs L1 := by
  have h2 : List.zipWith (fun (c : ℂ) (q : V) => c • q) (cs ++ []) (L1 ++ L2)
      = List.zipWith (fun (c : ℂ) (q : V) => c • q) cs L1 ++
        List.zipWith (fun (c : ℂ) (q : V) => c • q) [] L2 :=
    List.zipWith_append _ _ _ _ _ h
  simpa using h2

theorem qrCols_spec {V : Type} [NormedAddCommGroup V] [InnerProductSpace ℂ V] :
    ∀ (ws Qacc : List V), ONList Qacc →
      (∀ p ∈ qrCols Qacc ws, (0 : ℝ) < p.2.2) →
      ONList (Qacc ++ (qrCols Qacc ws).map Prod.fst) ∧
      (qrCols Qacc ws).length = ws.length ∧
      (∀ (i : ℕ) (hi : i < ws.length) (hi2 : i < (qrCols Qacc ws).length),
        ((qrCols Qacc ws).get ⟨i, hi2⟩).2.1.length = Qacc.length + i ∧
        0 ≤ ((qrCols Qacc ws).get ⟨i, hi2⟩).2.2 ∧
        ws.get ⟨i, hi⟩ =
          (List.zipWith (fun (c : ℂ) (q : V) => c • q)
              ((qrCols Qacc ws).get ⟨i, hi2⟩).2.1
              (Qacc ++ (qrCols Qacc ws).map Prod.fst)).sum
            + ((((qrCols Qacc ws).get ⟨i, hi2⟩).2.2 : ℝ) : ℂ) •
              ((qrCols Qacc ws).get ⟨i, hi2⟩).1) := by
  intro ws
  induction ws with
  | nil =>
    intro Qacc hON _
    refine ⟨by simpa [qrCols] using hON, by simp [qrCols], ?_⟩
    intro i hi
    simp at hi
  | cons w ws ih =>
    intro Qacc hON hpos
    simp only [qrCols] at hpos ⊢
    set v : V := (mgsPass w Qacc).1 with hv
    set rii : ℝ := Real.sqrt (Complex.abs (inner v v : ℂ)) with hrii
    set q : V := ((rii : ℝ) : ℂ)⁻¹ • v with hq
    have hposh : 0 < rii := by
      have := hpos _ (List.mem_cons_self _ _)
      exact this
    have hpost : ∀ p ∈ qrCols (Qacc ++ [q]) ws, (0 : ℝ) < p.2.2 :=
      fun p hp => hpos p (List.mem_cons_of_mem _ hp)
    have hriine : rii ≠ 0 := ne_of_gt hposh
    have hriiC : ((rii : ℝ) : ℂ) ≠ 0 := Complex.ofReal_ne_zero.mpr hriine
    have hriiv : rii = ‖v‖ := by rw [hrii, qr_norm_value]
    have hvv : (inner v v : ℂ) = ((rii : ℝ) : ℂ) ^ 2 := by
      rw [@inner_self_eq_norm_sq_to_K ℂ V _ _ _ v, hriiv]
      norm_num
    have hvo : ∀ u ∈ Qacc, (inner u v : ℂ) = 0 :=
      fun u hu => mgsPass_orth Qacc hON w u hu
    have hvo2 : ∀ u ∈ Qacc, (inner v u : ℂ) = 0 :=
      fun u hu => inner_eq_zero_symm.mp (hvo u hu)
    have hqo : ∀ u ∈ Qacc, (inner u q : ℂ) = 0 := by
      intro u hu
      rw [hq, inner_smul_right, hvo u hu, mul_zero]
    have hqo2 : ∀ u ∈ Qacc, (inner q u : ℂ) = 0 := by
      intro u hu
      rw [hq, inner_smul_left, hvo2 u hu, mul_zero]
    have hqq : (inner q q : ℂ) = 1 := by
      rw [hq, inner_smul_left, inner_smul_right, hvv, map_inv₀, Complex.conj_ofReal]
      field_simp
      ring
    have hONq : ONList (Qacc ++ [q]) := by
      constructor
      · rw [List.pairwise_append]
        refine ⟨hON.1, List.pairwise_singleton _ _, ?_⟩
        intro x hx y hy
        rw [List.mem_singleton] at hy
        subst hy
        exact ⟨hqo x hx, hqo2 x hx⟩
      · intro x hx
        rcases List.mem_append.mp hx with h1 | h1
        · exact hON.2 x h1
        · rw [List.mem_singleton] at h1
          subst h1
          exact hqq
    obtain ⟨ihON, ihlen, ihcols⟩ := ih (Qacc ++ [q]) hONq hpost
    have happ : Qacc ++ q :: (qrCols (Qacc ++ [q]) ws).map Prod.fst
        = (Qacc ++ [q]) ++ (qrCols (Qacc ++ [q]) ws).map Prod.fst := by
      simp
    refine ⟨?_, ?_, ?_⟩
    · rw [List.map_cons, happ]
      exact ihON
    · simp [ihlen]
    · intro i hi hi2
      cases i with
      | zero =>
        refine ⟨?_, le_of_lt hposh, ?_⟩
        · simpa using mgsPass_len Qacc w
        · have hz := zipWith_smul_trunc (mgsPass w Qacc).2 Qacc
            (q :: (qrCols (Qacc ++ [q]) ws).map Prod.fst) (mgsPass_len Qacc w)
          simp only [List.map_cons, List.get]
          rw [hz]
          have hrec := mgsPass_recon Qacc w
          rw [← hv] at hrec
          have hqv : ((rii : ℝ) : ℂ) • q = v := by
            rw [hq, smul_smul, mul_inv_cancel₀ hriiC, one_smul]
          rw [hqv, hrec]
          abel
      | succ j =>
        have hj : j < ws.length := by simpa using hi
        have hj2 : j < (qrCols (Qacc ++ [q]) ws).length := by simpa using hi2
        obtain ⟨hlen1, hnn, hrec⟩ := ihcols j hj hj2
        refine ⟨?_, hnn, ?_⟩
        · show (List.get (qrCols (Qacc ++ [q]) ws) ⟨j, hj2⟩).2.1.length = _
          rw [hlen1]
          simp only [List.length_append, List.length_singleton]
          omega
        · simp only [List.map_cons, List.get]
          rw [happ]
          exact hrec

/-- C7: for every sequence of columns `W` whose Gram-Schmidt diagonal entries
(the `R[i,i]` computed by `qr`, positive exactly when `W` has full rank)
are positive, `qr W` returns `Q` and `R` with `W = Q * R` and
`inner_product(Q, Q) = I`: the columns of `Q` are orthonormal, `R` is upper
triangular (column `i` stores exactly `i` entries above its diagonal; the
entries below are absent, i.e. zero) with real non-negative diagonal, and
column `i` of `W` equals `sum_{j < i} R[j,i] * Q_j + R[i,i] * Q_i`. -/
theorem qr_spec {V : Type} [NormedAddCommGroup V] [InnerProductSpace ℂ V]
    (Ws : List V) (hpos : ∀ p ∈ qr Ws, (0 : ℝ) < p.2.2) :
    ONList ((qr Ws).map Prod.fst) ∧
    (qr Ws).length = Ws.length ∧
    ∀ (i : ℕ) (hi : i < Ws.length) (hi2 : i < (qr Ws).length),
      ((qr Ws).get ⟨i, hi2⟩).2.1.length = i ∧
      0 ≤ ((qr Ws).get ⟨i, hi2⟩).2.2 ∧
      Ws.get ⟨i, hi⟩ =
        (List.zipWith (fun (c : ℂ) (q : V) => c • q) ((qr Ws).get ⟨i, hi2⟩).2.1
          ((qr Ws).map Prod.fst)).sum
        + ((((qr Ws).get ⟨i, hi2⟩).2.2 : ℝ) : ℂ) • ((qr Ws).get ⟨i, hi2⟩).1 := by
  have hON : ONList ([] : List V) := ⟨List.Pairwise.nil, by simp⟩
  obtain ⟨h1, h2, h3⟩ := qrCols_spec Ws [] hON hpos
  refine ⟨by simpa using h1, h2, ?_⟩
  intro i hi hi2
  obtain ⟨a, b, c⟩ := h3 i hi hi2
  exact ⟨by simpa using a, b, by simpa using c⟩

theorem qr_spec_witness :
    ONList ((qr [(1 : ℂ)]).map Prod.fst) := by
  have hpos : ∀ p ∈ qr [(1 : ℂ)], (0 : ℝ) < p.2.2 := by
    intro p hp
    have he : qr [(1 : ℂ)]
        = [(((Real.sqrt (Complex.abs (inner (1 : ℂ) (1 : ℂ) : ℂ)) : ℝ) : ℂ)⁻¹ • (1 : ℂ),
            [], Real.sqrt (Complex.abs (inner (1 : ℂ) (1 : ℂ) : ℂ)))] := rfl
    rw [he, List.mem_singleton] at hp
    subst hp
    show (0 : ℝ) < Real.sqrt (Complex.abs (inner (1 : ℂ) (1 : ℂ) : ℂ))
    rw [qr_norm_value]
    norm_num
  exact (qr_spec [(1 : ℂ)] hpos).1
